import Mathlib

/-!
Shallow embedding of `flight_price_tracker.py` (FlightsPlot repository).

Strings are modelled as `List Char`.  Regular-expression searches from the
source are compiled to deterministic scanners; each compilation is justified
by the usual leftmost/greedy backtracking semantics of Python's `re` module
(character classes occurring next to each other in the patterns are disjoint,
which makes the greedy choice forced at every step).
-/

namespace FlightsPlot

/-- Model of Python's `\w` character class (ASCII fragment): letters, digits
and underscore, stated by code-point ranges. -/
def isWordChar (c : Char) : Bool :=
  decide (65 ≤ c.toNat ∧ c.toNat ≤ 90) || decide (97 ≤ c.toNat ∧ c.toNat ≤ 122) ||
  decide (48 ≤ c.toNat ∧ c.toNat ≤ 57) || c = '_'

/-- Model of Python's `\s` character class: space, tab, newline, carriage
return, vertical tab, form feed. -/
def pySpace (c : Char) : Bool :=
  c = ' ' || c = '\t' || c = '\n' || c = '\r' || c = Char.ofNat 11 || c = Char.ofNat 12

/-- Model of Python's `\d` character class. -/
def pyDigit (c : Char) : Bool :=
  decide (48 ≤ c.toNat ∧ c.toNat ≤ 57)

/-- Case-insensitive character comparison, as used by `re.IGNORECASE`. -/
def eqi (a b : Char) : Bool :=
  a.toLower == b.toLower

/-- Python's `needle in haystack` substring test. -/
def containsSub (hay needle : List Char) : Bool :=
  match hay with
  | [] => needle.isEmpty
  | _ :: t => needle.isPrefixOf hay || containsSub t needle

/-- Python's `str.strip()` (whitespace from both ends). -/
def pyStrip (s : List Char) : List Char :=
  ((s.dropWhile pySpace).reverse.dropWhile pySpace).reverse

/-- Python's `str.split(sep)` for a single-character separator. -/
def splitOnChar (sep : Char) : List Char → List (List Char)
  | [] => [[]]
  | c :: t =>
    let r := splitOnChar sep t
    if c = sep then [] :: r
    else
      match r with
      | [] => [[c]]
      | h :: t2 => (c :: h) :: t2

/-- Python's `str.lower()` on a whole string. -/
def pyLower (s : List Char) : List Char :=
  s.map Char.toLower

/-- Leftmost search: try the matcher at every start position in turn, as
`re.search` does. -/
def searchLeftmost (f : List Char → Option (List Char)) : List Char → Option (List Char)
  | [] => f []
  | c :: t =>
    match f (c :: t) with
    | some g => some g
    | none => searchLeftmost f t

/-- Whether a list starts with a word character. -/
def headIsWord : List Char → Bool
  | [] => false
  | c :: _ => isWordChar c

/-- One pass of `re.sub(r'\b' + key + r'\b', val, s, flags=re.IGNORECASE)` for
a three-letter key, scanning left to right.  `prev` records whether the
character just before the current position is a word character (this is what
`\b` inspects on the left; on the right the key is followed by a non-word
character or the end of the string). -/
def sub3 (k : Char × Char × Char) (v : List Char) (prev : Bool) (s : List Char) : List Char :=
  match s with
  | a :: b :: c :: rest =>
    if !prev && eqi a k.1 && eqi b k.2.1 && eqi c k.2.2 && !(headIsWord rest) then
      v ++ sub3 k v (isWordChar c) rest
    else
      a :: sub3 k v (isWordChar a) (b :: c :: rest)
  | s => s

/-- The Italian-to-English translation table of `normalize_italian_date`, in
Python dict insertion order.  The literal in the source writes the key
`'mar'` twice (day `'Tue'`, then month `'Mar'`); the second value overwrites
the first while the key keeps its original position, so the table maps
`'mar'` to `'Mar'`. -/
def italianPairs : List ((Char × Char × Char) × List Char) :=
  [(('l','u','n'), "Mon".toList), (('m','a','r'), "Mar".toList),
   (('m','e','r'), "Wed".toList), (('g','i','o'), "Thu".toList),
   (('v','e','n'), "Fri".toList), (('s','a','b'), "Sat".toList),
   (('d','o','m'), "Sun".toList), (('g','e','n'), "Jan".toList),
   (('f','e','b'), "Feb".toList), (('a','p','r'), "Apr".toList),
   (('m','a','g'), "May".toList), (('g','i','u'), "Jun".toList),
   (('l','u','g'), "Jul".toList), (('a','g','o'), "Aug".toList),
   (('s','e','t'), "Sep".toList), (('o','t','t'), "Oct".toList),
   (('n','o','v'), "Nov".toList), (('d','i','c'), "Dec".toList)]

/-- The translation loop of `normalize_italian_date`: one `re.sub` pass per
table entry, in table order. -/
def translateAll (s : List Char) : List Char :=
  italianPairs.foldl (fun acc kv => sub3 kv.1 kv.2 false acc) s

/-- The final `re.sub(r'^(\w{3})\s+(\d)', r'\1, \2', s)` of
`normalize_italian_date`.  The pattern is anchored at the start of the
string, so at most one replacement happens: three word characters, a
non-empty whitespace run, then a digit; the whitespace run is replaced by
a comma and a single space. -/
def commaFix (s : List Char) : List Char :=
  match s with
  | a :: b :: c :: rest =>
    if isWordChar a && isWordChar b && isWordChar c then
      match rest.dropWhile pySpace with
      | d :: tail =>
        if !(rest.takeWhile pySpace).isEmpty && pyDigit d then
          a :: b :: c :: ',' :: ' ' :: d :: tail
        else s
      | [] => s
    else s
  | _ => s

/-- Embedding of `normalize_italian_date`. -/
def normalize_italian_date (s : List Char) : List Char :=
  if s.contains ',' then s
  else commaFix (translateAll s)

/-- Tail `\s*-\s*$` shared by the time and airport line patterns: optional
whitespace, a dash, then only whitespace up to the end of the line. -/
def tailDashOk (r : List Char) : Bool :=
  match r.dropWhile pySpace with
  | '-' :: r2 => r2.all pySpace
  | _ => false

/-- The anchored time pattern `^(\d{1,2}:\d{2})\s*-\s*$` applied to a
stripped line; returns the captured `\d{1,2}:\d{2}` group.  Greedy `\d{1,2}`
is forced: if the first two characters are digits the third must be the
colon (giving back a digit cannot produce a colon). -/
def timeMatch (s : List Char) : Option (List Char) :=
  match s with
  | c0 :: c1 :: rest =>
    if pyDigit c0 then
      if pyDigit c1 then
        match rest with
        | ':' :: d1 :: d2 :: r =>
          if pyDigit d1 && pyDigit d2 && tailDashOk r then some [c0, c1, ':', d1, d2] else none
        | _ => none
      else if c1 = ':' then
        match rest with
        | d1 :: d2 :: r =>
          if pyDigit d1 && pyDigit d2 && tailDashOk r then some [c0, ':', d1, d2] else none
        | _ => none
      else none
    else none
  | _ => none

/-- Uppercase ASCII letter test, the `[A-Z]` class. -/
def upperAZ (c : Char) : Bool :=
  decide (65 ≤ c.toNat ∧ c.toNat ≤ 90)

/-- The anchored airport pattern `^([A-Z]{3})\s*-\s*$` applied to a stripped
line; returns the captured three-letter code. -/
def airportMatch (s : List Char) : Option (List Char) :=
  match s with
  | a :: b :: c :: r =>
    if upperAZ a && upperAZ b && upperAZ c && tailDashOk r then some [a, b, c] else none
  | _ => none

/-- The anchored prefix pattern `^([A-Z]{3})` applied to a stripped line. -/
def prefix3Upper (s : List Char) : Option (List Char) :=
  match s with
  | a :: b :: c :: _ =>
    if upperAZ a && upperAZ b && upperAZ c then some [a, b, c] else none
  | _ => none

/-- The Italian date pattern `(\w+\s+\d{1,2}\s+\w+)` tried at one position.
Every quantifier is forced to its maximal run because adjacent classes are
disjoint; `\d{1,2}` fails outright on a digit run longer than two (giving
back a digit leaves a digit where `\s+` must match). -/
def matchDateItAt (u : List Char) : Option (List Char) :=
  let w1 := u.takeWhile isWordChar
  if w1.isEmpty then none else
  let r1 := u.dropWhile isWordChar
  let s1 := r1.takeWhile pySpace
  if s1.isEmpty then none else
  let r2 := r1.dropWhile pySpace
  let d := r2.takeWhile pyDigit
  if d.isEmpty || decide (2 < d.length) then none else
  let r3 := r2.dropWhile pyDigit
  let s2 := r3.takeWhile pySpace
  if s2.isEmpty then none else
  let r4 := r3.dropWhile pySpace
  let w2 := r4.takeWhile isWordChar
  if w2.isEmpty then none else
  some (w1 ++ s1 ++ d ++ s2 ++ w2)

/-- The English date pattern `(\w+,\s+\d{1,2}\s+\w+)` tried at one position. -/
def matchDateEnAt (u : List Char) : Option (List Char) :=
  let w1 := u.takeWhile isWordChar
  if w1.isEmpty then none else
  match u.dropWhile isWordChar with
  | ',' :: r1 =>
    let s1 := r1.takeWhile pySpace
    if s1.isEmpty then none else
    let r2 := r1.dropWhile pySpace
    let d := r2.takeWhile pyDigit
    if d.isEmpty || decide (2 < d.length) then none else
    let r3 := r2.dropWhile pyDigit
    let s2 := r3.takeWhile pySpace
    if s2.isEmpty then none else
    let r4 := r3.dropWhile pySpace
    let w2 := r4.takeWhile isWordChar
    if w2.isEmpty then none else
    some (w1 ++ [','] ++ s1 ++ d ++ s2 ++ w2)
  | _ => none

/-- The Italian price pattern `€\s*(\d+)` tried at one position; returns the
captured digit run. -/
def matchPriceItAt (u : List Char) : Option (List Char) :=
  match u with
  | '€' :: r =>
    let d := (r.dropWhile pySpace).takeWhile pyDigit
    if d.isEmpty then none else some d
  | _ => none

/-- The English price pattern `(\d+)\s*€` tried at one position. -/
def matchPriceEnAt (u : List Char) : Option (List Char) :=
  let d := u.takeWhile pyDigit
  if d.isEmpty then none else
  match (u.dropWhile pyDigit).dropWhile pySpace with
  | '€' :: _ => some d
  | _ => none

/-- One iteration of the inner airport loop at window line `j`: the stripped
line must match the airport pattern and the immediately following line must
have a three-uppercase-letter stripped prefix; then the pair `code1-code2`
is produced. -/
def airportAt (lines : List (List Char)) (j : Nat) : Option (List Char) :=
  match airportMatch (pyStrip (lines.getD j [])) with
  | some code =>
    match lines.get? (j + 1) with
    | some nxt =>
      match prefix3Upper (pyStrip nxt) with
      | some c2 => some (code ++ '-' :: c2)
      | none => none
    | none => none
  | none => none

/-- The inner `for j in range(i+1, min(i+5, len(lines)))` airport search of
the extractors: the first window line with a successful `airportAt` produces
the pair (and breaks the loop); window lines failing either part are
skipped. -/
def airportSearch (lines : List (List Char)) (i : Nat) : Option (List Char) :=
  (List.range' (i + 1) (min (i + 5) lines.length - (i + 1))).findSome? (fun j =>
    airportAt lines j)

/-- The `for i, line in enumerate(lines)` loop shared verbatim by all three
extractors, collecting `times` and `airports` (index-keyed, in line order). -/
def scanTAGo (lines : List (List Char)) : Nat → List (List Char) →
    List (Nat × List Char) × List (Nat × List Char)
  | _, [] => ([], [])
  | i, l :: rest =>
    let r := scanTAGo lines (i + 1) rest
    match timeMatch (pyStrip l) with
    | some t =>
      ((i, t) :: r.1,
        match airportSearch lines i with
        | some pr => (i, pr) :: r.2
        | none => r.2)
    | none => r

/-- Times and airports collected over all lines. -/
def scanTimesAirports (lines : List (List Char)) :
    List (Nat × List Char) × List (Nat × List Char) :=
  scanTAGo lines 0 lines

/-- Italian date collection: lines where `re.search` finds the Italian date
pattern and the lowered line contains `'ott'`. -/
def italianDates (lines : List (List Char)) : List (Nat × List Char) :=
  datesGo 0 lines
where
  datesGo : Nat → List (List Char) → List (Nat × List Char)
    | _, [] => []
    | i, l :: rest =>
      match searchLeftmost matchDateItAt l with
      | some g =>
        if containsSub (pyLower l) "ott".toList then (i, g) :: datesGo (i + 1) rest
        else datesGo (i + 1) rest
      | none => datesGo (i + 1) rest

/-- English date collection: lines where `re.search` finds the English date
pattern and the raw line contains `'Oct'`. -/
def englishDates (lines : List (List Char)) : List (Nat × List Char) :=
  datesGo 0 lines
where
  datesGo : Nat → List (List Char) → List (Nat × List Char)
    | _, [] => []
    | i, l :: rest =>
      match searchLeftmost matchDateEnAt l with
      | some g =>
        if containsSub l "Oct".toList then (i, g) :: datesGo (i + 1) rest
        else datesGo (i + 1) rest
      | none => datesGo (i + 1) rest

/-- Keyword test of the Italian price loop. -/
def italianKw (l : List Char) : Bool :=
  containsSub (pyLower l) "aumentato".toList || containsSub (pyLower l) "diminuito".toList ||
  containsSub (pyLower l) "sceso".toList

/-- Keyword test of the English price loops. -/
def englishKw (l : List Char) : Bool :=
  containsSub (pyLower l) "gone up".toList || containsSub (pyLower l) "gone down".toList

/-- The `for j in range(max(0, i-5), min(len(lines), i+5))` window searched
for an Italian price around line `i` (natural subtraction realises the
`max(0, ·)` clamp). -/
def priceWindowIt (lines : List (List Char)) (i : Nat) : Option (List Char) :=
  (List.range' (i - 5) (min lines.length (i + 5) - (i - 5))).findSome? (fun j =>
    searchLeftmost matchPriceItAt (lines.getD j []))

/-- The window searched for an English price around line `i`. -/
def priceWindowEn (lines : List (List Char)) (i : Nat) : Option (List Char) :=
  (List.range' (i - 5) (min lines.length (i + 5) - (i - 5))).findSome? (fun j =>
    searchLeftmost matchPriceEnAt (lines.getD j []))

/-- The Italian price loop: a `price_found` flag makes the first keyword line
with a window hit win. -/
def italianPrice (lines : List (List Char)) : List Char :=
  (priceGo 0 lines ([], false)).1
where
  priceGo : Nat → List (List Char) → List Char × Bool → List Char × Bool
    | _, [], st => st
    | i, l :: rest, st =>
      let st2 :=
        if st.2 then st
        else if italianKw l then
          match priceWindowIt lines i with
          | some p => (p, true)
          | none => st
        else st
      priceGo (i + 1) rest st2

/-- The English single-flight price loop: no flag, so the last keyword line
with a window hit wins. -/
def englishPrice (lines : List (List Char)) : List Char :=
  priceGo 0 lines []
where
  priceGo : Nat → List (List Char) → List Char → List Char
    | _, [], st => st
    | i, l :: rest, st =>
      let st2 :=
        if englishKw l then
          match priceWindowEn lines i with
          | some p => p
          | none => st
        else st
      priceGo (i + 1) rest st2

/-- The English double-flight price loop: one appended entry per keyword line
with a window hit. -/
def englishPrices (lines : List (List Char)) : List (Nat × List Char) :=
  priceGo 0 lines
where
  priceGo : Nat → List (List Char) → List (Nat × List Char)
    | _, [] => []
    | i, l :: rest =>
      if englishKw l then
        match priceWindowEn lines i with
        | some p => (i, p) :: priceGo (i + 1) rest
        | none => priceGo (i + 1) rest
      else priceGo (i + 1) rest

/-- The record dictionary built by every extractor. -/
structure FlightRecord where
  date : List Char
  direction1 : List Char
  date1 : List Char
  time1 : List Char
  direction2 : List Char
  date2 : List Char
  time2 : List Char
  price : List Char
  label : List Char
deriving DecidableEq

/-- The f-string label `"{d1}:{d2} {a} - {b} :: {t1} - {t2}"`. -/
def mkLabel (d1 d2 a b t1 t2 : List Char) : List Char :=
  d1 ++ ':' :: d2 ++ ' ' :: a ++ " - ".toList ++ b ++ " :: ".toList ++ t1 ++ " - ".toList ++ t2

/-- Embedding of `extract_italian_single_flight`. -/
def extract_italian_single_flight (text email_date : List Char) : FlightRecord :=
  let lines := splitOnChar '\n' text
  let dates := italianDates lines
  let ta := scanTimesAirports lines
  let price := italianPrice lines
  let dd : List Char × List Char :=
    match dates with
    | d1 :: d2 :: _ => (normalize_italian_date d1.2, normalize_italian_date d2.2)
    | _ => ([], [])
  let tt : List Char × List Char :=
    match ta.1 with
    | t1 :: t2 :: _ => (t1.2, t2.2)
    | _ => ([], [])
  let aa : List Char × List Char :=
    match ta.2 with
    | a1 :: a2 :: _ => (a1.2, a2.2)
    | _ => ([], [])
  let label :=
    if !aa.1.isEmpty && !dd.1.isEmpty && !dd.2.isEmpty then
      mkLabel aa.1 aa.2 dd.1 dd.2 tt.1 tt.2
    else []
  ⟨email_date, aa.1, dd.1, tt.1, aa.2, dd.2, tt.2, price, label⟩

/-- Embedding of `extract_english_single_flight`. -/
def extract_english_single_flight (text email_date : List Char) : FlightRecord :=
  let lines := splitOnChar '\n' text
  let dates := englishDates lines
  let ta := scanTimesAirports lines
  let price := englishPrice lines
  let dd : List Char × List Char :=
    match dates with
    | d1 :: d2 :: _ => (d1.2, d2.2)
    | _ => ([], [])
  let tt : List Char × List Char :=
    match ta.1 with
    | t1 :: t2 :: _ => (t1.2, t2.2)
    | _ => ([], [])
  let aa : List Char × List Char :=
    match ta.2 with
    | a1 :: a2 :: _ => (a1.2, a2.2)
    | _ => ([], [])
  let label :=
    if !aa.1.isEmpty && !dd.1.isEmpty && !dd.2.isEmpty then
      mkLabel aa.1 aa.2 dd.1 dd.2 tt.1 tt.2
    else []
  ⟨email_date, aa.1, dd.1, tt.1, aa.2, dd.2, tt.2, price, label⟩

/-- Embedding of `extract_english_double_flight` (returns `[flight1, flight2]`). -/
def extract_english_double_flight (text email_date : List Char) : List FlightRecord :=
  let lines := splitOnChar '\n' text
  let dates := englishDates lines
  let ta := scanTimesAirports lines
  let prices := englishPrices lines
  let mid : Nat :=
    match dates with
    | _ :: _ :: d3 :: _ :: _ => d3.1
    | _ => 700
  let dates1 := dates.filter (fun d => decide (d.1 < mid))
  let times1 := ta.1.filter (fun t => decide (t.1 < mid))
  let airports1 := ta.2.filter (fun a => decide (a.1 < mid))
  let dates2 := dates.filter (fun d => decide (mid - 20 ≤ d.1))
  let times2 := ta.1.filter (fun t => decide (mid - 20 ≤ t.1))
  let airports2 := ta.2.filter (fun a => decide (mid - 20 ≤ a.1))
  let dd1 : List Char × List Char :=
    match dates1 with
    | d1 :: d2 :: _ => (normalize_italian_date d1.2, normalize_italian_date d2.2)
    | _ => ([], [])
  let tt1 : List Char × List Char :=
    match times1 with
    | t1 :: t2 :: _ => (t1.2, t2.2)
    | _ => ([], [])
  let aa1 : List Char × List Char :=
    match airports1 with
    | a1 :: a2 :: _ => (a1.2, a2.2)
    | _ => ([], [])
  let p1 : List Char :=
    match prices with
    | p :: _ => p.2
    | _ => []
  let label1 :=
    if !aa1.1.isEmpty then mkLabel aa1.1 aa1.2 dd1.1 dd1.2 tt1.1 tt1.2 else []
  let dd2 : List Char × List Char :=
    match dates2.reverse with
    | dLast :: dPrev :: _ => (normalize_italian_date dPrev.2, normalize_italian_date dLast.2)
    | _ => ([], [])
  let tt2 : List Char × List Char :=
    match times2.reverse with
    | tLast :: tPrev :: _ => (tPrev.2, tLast.2)
    | _ => ([], [])
  let aa2 : List Char × List Char :=
    match airports2.reverse with
    | aLast :: aPrev :: _ => (aPrev.2, aLast.2)
    | _ => ([], [])
  let p2 : List Char :=
    match prices with
    | _ :: p :: _ => p.2
    | _ => []
  let label2 :=
    if !aa2.1.isEmpty then mkLabel aa2.1 aa2.2 dd2.1 dd2.2 tt2.1 tt2.2 else []
  [⟨email_date, aa1.1, dd1.1, tt1.1, aa1.2, dd1.2, tt1.2, p1, label1⟩,
   ⟨email_date, aa2.1, dd2.1, tt2.1, aa2.2, dd2.2, tt2.2, p2, label2⟩]

/-- One MIME part yielded by `email_message.walk()`.  `utf8` and `latin` hold
the results of the two `get_payload(decode=True).decode(...)` attempts of the
source; `none` models the attempt raising an exception. -/
structure EmailPart where
  contentType : List Char
  utf8 : Option (List Char)
  latin : Option (List Char)

/-- One mbox message.  `walk` lists the parts yielded by `walk()` when the
message is multipart; `utf8`/`latin` are the decode attempts on the
message's own payload otherwise.  `dateHeader` models the `Date` header:
`none` when absent or falsy, `some none` when `parsedate_to_datetime`
raises, `some (some d)` when it succeeds with `strftime` output `d`. -/
structure EmailMsg where
  multipart : Bool
  walk : List EmailPart
  utf8 : Option (List Char)
  latin : Option (List Char)
  dateHeader : Option (Option (List Char))

/-- Embedding of `extract_text_from_email`; `none` models an exception
escaping the function (the bare `except` catches only the first decode
attempt). -/
def extract_text_from_email (m : EmailMsg) : Option (List Char) :=
  if m.multipart then
    match m.walk.find? (fun p => p.contentType == "text/plain".toList) with
    | some p =>
      match p.utf8 with
      | some t => some t
      | none => p.latin
    | none => some []
  else
    match m.utf8 with
    | some t => some t
    | none => m.latin

/-- The three structural variants recognised by `detect_email_type`. -/
inductive EmailType where
  | italian_single
  | english_double
  | english_single
deriving DecidableEq

/-- Embedding of `detect_email_type`. -/
def detect_email_type (text : List Char) : Option EmailType :=
  if containsSub text "Il prezzo dei tuoi voli".toList ||
     containsSub text "Da Zurigo a Lisbona".toList then
    some .italian_single
  else if containsSub text "Price updates for 2 saved flights".toList then
    some .english_double
  else if containsSub text "Zurich to Lisbon".toList && containsSub text "Your".toList &&
          containsSub text "flights have".toList then
    some .english_single
  else none

/-- The first fallback pattern `(\d{1,2}\s+\w+\s+\d{4})` of
`extract_date_from_email`, tried at one position. -/
def matchDatePat1At (u : List Char) : Option (List Char) :=
  let d := u.takeWhile pyDigit
  if d.isEmpty || decide (2 < d.length) then none else
  let r1 := u.dropWhile pyDigit
  let s1 := r1.takeWhile pySpace
  if s1.isEmpty then none else
  let r2 := r1.dropWhile pySpace
  let w := r2.takeWhile isWordChar
  if w.isEmpty then none else
  let r3 := r2.dropWhile isWordChar
  let s2 := r3.takeWhile pySpace
  if s2.isEmpty then none else
  let r4 := r3.dropWhile pySpace
  let y := r4.takeWhile pyDigit
  if decide (y.length < 4) then none else
  some (d ++ s1 ++ w ++ s2 ++ y.take 4)

/-- The second fallback pattern `(\w+,\s+\d{1,2}\s+\w+\s+\d{4})` of
`extract_date_from_email`, tried at one position. -/
def matchDatePat2At (u : List Char) : Option (List Char) :=
  let w1 := u.takeWhile isWordChar
  if w1.isEmpty then none else
  match u.dropWhile isWordChar with
  | ',' :: r1 =>
    let s1 := r1.takeWhile pySpace
    if s1.isEmpty then none else
    let r2 := r1.dropWhile pySpace
    let d := r2.takeWhile pyDigit
    if d.isEmpty || decide (2 < d.length) then none else
    let r3 := r2.dropWhile pyDigit
    let s2 := r3.takeWhile pySpace
    if s2.isEmpty then none else
    let r4 := r3.dropWhile pySpace
    let w2 := r4.takeWhile isWordChar
    if w2.isEmpty then none else
    let r5 := r4.dropWhile isWordChar
    let s3 := r5.takeWhile pySpace
    if s3.isEmpty then none else
    let r6 := r5.dropWhile pySpace
    let y := r6.takeWhile pyDigit
    if decide (y.length < 4) then none else
    some (w1 ++ [','] ++ s1 ++ d ++ s2 ++ w2 ++ s3 ++ y.take 4)
  | _ => none

/-- Embedding of `extract_date_from_email`: a parsed `Date` header wins,
otherwise the two fallback patterns are searched over `text[:500]`, else the
empty string. -/
def extract_date_from_email (m : EmailMsg) (text : List Char) : List Char :=
  match m.dateHeader with
  | some (some d) => d
  | _ =>
    match searchLeftmost matchDatePat1At (text.take 500) with
    | some g => g
    | none =>
      match searchLeftmost matchDatePat2At (text.take 500) with
      | some g => g
      | none => []

/-- The loop body of `parse_mbox_file`, with the `all_flights` accumulator
made explicit; `none` models an exception aborting the whole parse. -/
def parseGo : List EmailMsg → List FlightRecord → Option (List FlightRecord)
  | [], acc => some acc
  | m :: rest, acc =>
    match extract_text_from_email m with
    | none => none
    | some text =>
      match detect_email_type text with
      | none => parseGo rest acc
      | some ty =>
        let email_date := extract_date_from_email m text
        match ty with
        | .italian_single =>
          let f := extract_italian_single_flight text email_date
          parseGo rest (if f.price.isEmpty then acc else acc ++ [f])
        | .english_single =>
          let f := extract_english_single_flight text email_date
          parseGo rest (if f.price.isEmpty then acc else acc ++ [f])
        | .english_double =>
          let fs := extract_english_double_flight text email_date
          parseGo rest (acc ++ fs.filter (fun f => !f.price.isEmpty))

/-- Embedding of `parse_mbox_file` over the message sequence of the mbox. -/
def parse_mbox_file (msgs : List EmailMsg) : Option (List FlightRecord) :=
  parseGo msgs []

/-- The `fieldnames` list handed to `csv.DictWriter`. -/
def csvFieldnames : List (List Char) :=
  ["date".toList, "direction1".toList, "date1".toList, "time1".toList,
   "direction2".toList, "date2".toList, "time2".toList, "price".toList, "label".toList]

/-- Dictionary lookup on a flight record by field name, as `DictWriter`
performs for each row. -/
def recordGet (r : FlightRecord) (name : List Char) : List Char :=
  if name = "date".toList then r.date
  else if name = "direction1".toList then r.direction1
  else if name = "date1".toList then r.date1
  else if name = "time1".toList then r.time1
  else if name = "direction2".toList then r.direction2
  else if name = "date2".toList then r.date2
  else if name = "time2".toList then r.time2
  else if name = "price".toList then r.price
  else if name = "label".toList then r.label
  else []

/-- One CSV data row: the record's fields in `fieldnames` order. -/
def csvRow (r : FlightRecord) : List (List Char) :=
  csvFieldnames.map (recordGet r)

/-- Embedding of `save_to_csv` at the row level: `writeheader()` first, then
`writerow` once per record, in order. -/
def save_to_csv (flights : List FlightRecord) : List (List (List Char)) :=
  csvFieldnames :: flights.map csvRow

/-- Specification-side per-message function: the records `parse_mbox_file`
derives from one message in isolation (`none` models an exception). -/
def processMsg (m : EmailMsg) : Option (List FlightRecord) :=
  match extract_text_from_email m with
  | none => none
  | some text =>
    match detect_email_type text with
    | none => some []
    | some ty =>
      let email_date := extract_date_from_email m text
      match ty with
      | .italian_single =>
        let f := extract_italian_single_flight text email_date
        some (if f.price.isEmpty then [] else [f])
      | .english_single =>
        let f := extract_english_single_flight text email_date
        some (if f.price.isEmpty then [] else [f])
      | .english_double =>
        some ((extract_english_double_flight text email_date).filter (fun f => !f.price.isEmpty))

/-- Specification-side batch function: every message processed independently,
results kept in message order. -/
def processAll : List EmailMsg → Option (List (List FlightRecord))
  | [] => some []
  | m :: rest =>
    match processMsg m with
    | none => none
    | some rs =>
      match processAll rest with
      | none => none
      | some ls => some (rs :: ls)

/-- Concrete Italian notification text used by witnesses. -/
def demoItalianText : List Char :=
  "Il prezzo dei tuoi voli è aumentato\n€ 123".toList

/-- Concrete Italian message used by witnesses. -/
def demoItalianMsg : EmailMsg :=
  ⟨false, [], some demoItalianText, none, some (some "Thu, 01 Oct 2025".toList)⟩

/-- Concrete message matching no variant marker, used by witnesses. -/
def demoSkipMsg : EmailMsg :=
  ⟨false, [], some "nothing to see".toList, none, none⟩

/-- Concrete English two-flight notification text used by witnesses. -/
def demoDoubleText : List Char :=
  "Price updates for 2 saved flights\nprices have gone up\n111 €\nf3\nf4\nf5\nf6\nf7\nagain gone up\n222 €".toList

/-- Concrete English two-flight message used by witnesses. -/
def demoDoubleMsg : EmailMsg :=
  ⟨false, [], some demoDoubleText, none, some (some "Wed, 30 Sep 2025".toList)⟩

/-- Concrete multipart message whose text part fails the UTF-8 decode, used
by witnesses. -/
def demoFallbackMsg : EmailMsg :=
  ⟨true, [⟨"text/html".toList, some "markup".toList, none⟩,
          ⟨"text/plain".toList, none, some "fallback".toList⟩], none, none, none⟩

/-- Concrete multipart message with no `text/plain` part, used by witnesses. -/
def demoNoPlainMsg : EmailMsg :=
  ⟨true, [⟨"text/html".toList, some "markup".toList, some "markup".toList⟩], none, none, none⟩

/-- Concrete text containing Italian and English markers at once, used by
witnesses. -/
def demoBothMarkersText : List Char :=
  "Il prezzo dei tuoi voli Price updates for 2 saved flights Zurich to Lisbon Your flights have".toList

/-- Specification-side airport neighbourhood search, following the claim:
among the four lines after the time line, the first line whose stripped
content is exactly a three-uppercase-letter code with a dash and whose
immediately following line has a three-uppercase-letter stripped prefix
yields the pair; with no such line, no pair. -/
def specAirportWindow (lines : List (List Char)) (i : Nat) : Option (List Char) :=
  ((List.range' (i + 1) (min (i + 5) lines.length - (i + 1))).find? (fun j =>
      (airportMatch (pyStrip (lines.getD j []))).isSome &&
      (match lines.get? (j + 1) with
       | some nxt => (prefix3Upper (pyStrip nxt)).isSome
       | none => false))).bind (fun j => airportAt lines j)

/-- Concrete line list exercising the airport window search, used by
witnesses. -/
def demoWindowLines : List (List Char) :=
  ["10:40 -".toList, "x".toList, "ZRH -".toList, "LIS airport".toList, "rest".toList]

/-- Word-boundary token map: split the string into maximal word-character
runs and separator characters, and rewrite each run with `f`.  This is the
specification-side view of one case-insensitive `\b...\b` substitution
pass. -/
def wordMap (f : List Char → List Char) (s : List Char) : List Char :=
  match s with
  | [] => []
  | c :: cs =>
    if isWordChar c then
      f ((c :: cs).takeWhile isWordChar) ++ wordMap f (cs.dropWhile isWordChar)
    else c :: wordMap f cs
termination_by s.length
decreasing_by
  · simp only [List.length_cons]
    exact Nat.lt_succ_of_le ((List.dropWhile_sublist isWordChar).length_le)
  · simp

/-- Single-word translation step: a three-character word case-insensitively
equal to the key becomes the value; any other word is unchanged. -/
def wordSub (k : Char × Char × Char) (v : List Char) (w : List Char) : List Char :=
  match w with
  | [a, b, c] => if eqi a k.1 && eqi b k.2.1 && eqi c k.2.2 then v else w
  | _ => w

/-- Specification-side word-level action of the whole translation table. -/
def translateWord (w : List Char) : List Char :=
  italianPairs.foldl (fun acc kv => wordSub kv.1 kv.2 acc) w

end FlightsPlot

namespace FlightsPlot

theorem parseGo_price_invariant (msgs : List EmailMsg) :
    ∀ acc recs, (∀ r ∈ acc, r.price ≠ []) → parseGo msgs acc = some recs →
      ∀ r ∈ recs, r.price ≠ [] := by
  induction msgs with
  | nil =>
    intro acc recs hacc h
    simp only [parseGo, Option.some.injEq] at h
    exact h ▸ hacc
  | cons m rest ih =>
    intro acc recs hacc h
    cases hx : extract_text_from_email m with
    | none => simp [parseGo, hx] at h
    | some text =>
      cases hd : detect_email_type text with
      | none =>
        simp only [parseGo, hx, hd] at h
        exact ih acc recs hacc h
      | some ty =>
        cases ty with
        | italian_single =>
          simp only [parseGo, hx, hd] at h
          refine ih _ recs ?_ h
          by_cases hp : (extract_italian_single_flight text
              (extract_date_from_email m text)).price.isEmpty
          · simpa [hp] using hacc
          · simp only [hp, if_false]
            intro r hr
            rcases List.mem_append.mp hr with hr | hr
            · exact hacc r hr
            · rcases List.mem_singleton.mp hr with rfl
              intro hnil
              simp [hnil] at hp
        | english_single =>
          simp only [parseGo, hx, hd] at h
          refine ih _ recs ?_ h
          by_cases hp : (extract_english_single_flight text
              (extract_date_from_email m text)).price.isEmpty
          · simpa [hp] using hacc
          · simp only [hp, if_false]
            intro r hr
            rcases List.mem_append.mp hr with hr | hr
            · exact hacc r hr
            · rcases List.mem_singleton.mp hr with rfl
              intro hnil
              simp [hnil] at hp
        | english_double =>
          simp only [parseGo, hx, hd] at h
          refine ih _ recs ?_ h
          intro r hr
          rcases List.mem_append.mp hr with hr | hr
          · exact hacc r hr
          · have := (List.mem_filter.mp hr).2
            intro hnil
            simp [hnil] at this

/-- C1: every record in a successful result of `parse_mbox_file` carries a
non-empty price, because each of the three extraction paths appends a record
only under the non-empty-price guard. -/
theorem claim_C1_parse_price_nonempty (msgs : List EmailMsg) (recs : List FlightRecord)
    (h : parse_mbox_file msgs = some recs) : ∀ r ∈ recs, r.price ≠ [] :=
  parseGo_price_invariant msgs [] recs (by simp) h

/-- C1 witness: a concrete Italian message yields a record whose price is the
extracted `123`. -/
theorem claim_C1_witness :
    (extract_italian_single_flight demoItalianText "Thu, 01 Oct 2025".toList).price ≠ [] :=
  claim_C1_parse_price_nonempty [demoItalianMsg]
    [extract_italian_single_flight demoItalianText "Thu, 01 Oct 2025".toList]
    (by rfl) _ (List.mem_singleton.mpr rfl)

theorem parseGo_skip (m : EmailMsg) (t : List Char)
    (hx : extract_text_from_email m = some t) (hd : detect_email_type t = none) :
    ∀ pre post acc, parseGo (pre ++ m :: post) acc = parseGo (pre ++ post) acc := by
  intro pre
  induction pre with
  | nil =>
    intro post acc
    simp only [List.nil_append, parseGo, hx, hd]
  | cons p pre ih =>
    intro post acc
    cases hxp : extract_text_from_email p with
    | none => simp [parseGo, hxp]
    | some tp =>
      cases hdp : detect_email_type tp with
      | none =>
        simp only [List.cons_append, parseGo, hxp, hdp]
        exact ih post acc
      | some ty =>
        cases ty <;> simp only [List.cons_append, parseGo, hxp, hdp] <;> exact ih post _

/-- C2: a message whose extracted text matches no variant marker contributes
no record and no error, and removing it from the sequence leaves the result
unchanged. -/
theorem claim_C2_unparseable_skipped (pre post : List EmailMsg) (m : EmailMsg) (t : List Char)
    (hx : extract_text_from_email m = some t) (hd : detect_email_type t = none) :
    processMsg m = some [] ∧
    parse_mbox_file (pre ++ m :: post) = parse_mbox_file (pre ++ post) :=
  ⟨by simp [processMsg, hx, hd], parseGo_skip m t hx hd pre post []⟩

/-- C2 witness: a concrete marker-free message between two real ones is
skipped without effect. -/
theorem claim_C2_witness :
    processMsg demoSkipMsg = some [] ∧
    parse_mbox_file ([demoItalianMsg] ++ demoSkipMsg :: [demoDoubleMsg]) =
      parse_mbox_file ([demoItalianMsg] ++ [demoDoubleMsg]) :=
  claim_C2_unparseable_skipped [demoItalianMsg] [demoDoubleMsg] demoSkipMsg
    "nothing to see".toList (by rfl) (by decide)

end FlightsPlot

namespace FlightsPlot

theorem parseGo_eq_processAll (msgs : List EmailMsg) :
    ∀ acc, parseGo msgs acc = (processAll msgs).map (fun ls => acc ++ ls.flatten) := by
  induction msgs with
  | nil => intro acc; simp [parseGo, processAll]
  | cons m rest ih =>
    intro acc
    cases hx : extract_text_from_email m with
    | none => simp [parseGo, processAll, processMsg, hx]
    | some text =>
      cases hd : detect_email_type text with
      | none =>
        cases hr : processAll rest with
        | none => simp [parseGo, processAll, processMsg, hx, hd, hr, ih acc]
        | some ls => simp [parseGo, processAll, processMsg, hx, hd, hr, ih acc]
      | some ty =>
        cases ty with
        | italian_single =>
          by_cases hpr : (extract_italian_single_flight text
              (extract_date_from_email m text)).price.isEmpty <;>
          cases hr : processAll rest <;>
            simp [parseGo, processAll, processMsg, hx, hd, hr, hpr, ih]
        | english_single =>
          by_cases hpr : (extract_english_single_flight text
              (extract_date_from_email m text)).price.isEmpty <;>
          cases hr : processAll rest <;>
            simp [parseGo, processAll, processMsg, hx, hd, hr, hpr, ih]
        | english_double =>
          cases hr : processAll rest <;>
            simp [parseGo, processAll, processMsg, hx, hd, hr, ih]

/-- C7: `parse_mbox_file` is a deterministic, strictly sequential batch: its
result is the concatenation, in message order, of the records each message
yields independently, and for a two-flight email the per-message records keep
`flight1` before `flight2` (the filtered pair list). -/
theorem claim_C7_sequential_batch :
    (∀ msgs, parse_mbox_file msgs = (processAll msgs).map List.flatten) ∧
    (∀ msgs1 msgs2, msgs1 = msgs2 → parse_mbox_file msgs1 = parse_mbox_file msgs2) ∧
    (∀ (m : EmailMsg) (text : List Char), extract_text_from_email m = some text →
      detect_email_type text = some .english_double →
      processMsg m = some ((extract_english_double_flight text
        (extract_date_from_email m text)).filter (fun f => !f.price.isEmpty))) := by
  refine ⟨fun msgs => ?_, fun a b h => h ▸ rfl,
    fun m text hx hd => by simp [processMsg, hx, hd]⟩
  rw [parse_mbox_file, parseGo_eq_processAll msgs []]
  cases processAll msgs <;> simp

/-- C7 witness: the records of a concrete two-flight email, `flight1` first. -/
theorem claim_C7_witness :
    processMsg demoDoubleMsg = some ((extract_english_double_flight demoDoubleText
      "Wed, 30 Sep 2025".toList).filter (fun f => !f.price.isEmpty)) :=
  claim_C7_sequential_batch.2.2 demoDoubleMsg demoDoubleText (by rfl) (by decide)

/-- C4: `detect_email_type` classifies by the marker phrases with Italian
first, then the two-flight English marker, then the three single-flight
English markers, and `none` otherwise; a text with both Italian and English
markers is Italian. -/
theorem claim_C4_detect_classification (t : List Char) :
    (detect_email_type t = some .italian_single ↔
      (containsSub t "Il prezzo dei tuoi voli".toList = true ∨
       containsSub t "Da Zurigo a Lisbona".toList = true)) ∧
    (detect_email_type t = some .english_double ↔
      (¬(containsSub t "Il prezzo dei tuoi voli".toList = true ∨
         containsSub t "Da Zurigo a Lisbona".toList = true) ∧
       containsSub t "Price updates for 2 saved flights".toList = true)) ∧
    (detect_email_type t = some .english_single ↔
      (¬(containsSub t "Il prezzo dei tuoi voli".toList = true ∨
         containsSub t "Da Zurigo a Lisbona".toList = true) ∧
       ¬containsSub t "Price updates for 2 saved flights".toList = true ∧
       (containsSub t "Zurich to Lisbon".toList = true ∧
        containsSub t "Your".toList = true ∧
        containsSub t "flights have".toList = true))) ∧
    (detect_email_type t = none ↔
      (¬(containsSub t "Il prezzo dei tuoi voli".toList = true ∨
         containsSub t "Da Zurigo a Lisbona".toList = true) ∧
       ¬containsSub t "Price updates for 2 saved flights".toList = true ∧
       ¬(containsSub t "Zurich to Lisbon".toList = true ∧
         containsSub t "Your".toList = true ∧
         containsSub t "flights have".toList = true))) ∧
    (((containsSub t "Il prezzo dei tuoi voli".toList = true ∨
       containsSub t "Da Zurigo a Lisbona".toList = true) ∧
      (containsSub t "Price updates for 2 saved flights".toList = true ∨
       (containsSub t "Zurich to Lisbon".toList = true ∧
        containsSub t "Your".toList = true ∧
        containsSub t "flights have".toList = true))) →
      detect_email_type t = some .italian_single) := by
  cases h1 : containsSub t "Il prezzo dei tuoi voli".toList <;>
  cases h2 : containsSub t "Da Zurigo a Lisbona".toList <;>
  cases h3 : containsSub t "Price updates for 2 saved flights".toList <;>
  cases h4 : containsSub t "Zurich to Lisbon".toList <;>
  cases h5 : containsSub t "Your".toList <;>
  cases h6 : containsSub t "flights have".toList <;>
  (simp only [detect_email_type, h1, h2, h3, h4, h5, h6]; simp)

/-- C4 witness: a text carrying the Italian marker together with all English
markers is classified `italian_single`. -/
theorem claim_C4_witness :
    detect_email_type demoBothMarkersText = some .italian_single :=
  (claim_C4_detect_classification demoBothMarkersText).2.2.2.2
    ⟨Or.inl (by decide), Or.inl (by decide)⟩

/-- C6: `save_to_csv` emits the fixed header row first — also for an empty
record list — followed by exactly one row per record, in list order. -/
theorem claim_C6_csv_layout (fl : List FlightRecord) :
    (save_to_csv fl).length = fl.length + 1 ∧
    (save_to_csv fl)[0]? = some ["date".toList, "direction1".toList, "date1".toList,
      "time1".toList, "direction2".toList, "date2".toList, "time2".toList,
      "price".toList, "label".toList] ∧
    (∀ k, (save_to_csv fl)[k + 1]? = (fl[k]?).map csvRow) ∧
    save_to_csv [] = [csvFieldnames] := by
  refine ⟨by simp [save_to_csv], by simp [save_to_csv, csvFieldnames], fun k => ?_,
    by simp [save_to_csv]⟩
  simp [save_to_csv]

/-- C3: when the UTF-8 decode of the selected payload fails, the function
returns the Latin-1 decode of the same payload instead of propagating the
failure, in both the multipart and the non-multipart branch. -/
theorem claim_C3_decode_fallback :
    (∀ (m : EmailMsg), m.multipart = false → m.utf8 = none →
      extract_text_from_email m = m.latin) ∧
    (∀ (m : EmailMsg) (p : EmailPart), m.multipart = true →
      m.walk.find? (fun q => q.contentType == "text/plain".toList) = some p →
      p.utf8 = none → extract_text_from_email m = p.latin) := by
  constructor
  · intro m hm hu
    simp [extract_text_from_email, hm, hu]
  · intro m p hm hf hu
    simp only [extract_text_from_email, hm]
    rw [if_true, hf]
    show (match p.utf8 with | some t => some t | none => p.latin) = p.latin
    rw [hu]

/-- C3 witness: a concrete multipart message whose text part only decodes as
Latin-1. -/
theorem claim_C3_witness :
    extract_text_from_email demoFallbackMsg = some "fallback".toList :=
  claim_C3_decode_fallback.2 demoFallbackMsg
    ⟨"text/plain".toList, none, some "fallback".toList⟩ rfl (by rfl) rfl

/-- C10: a multipart message without a `text/plain` part yields the empty
text, which matches no marker, so the message contributes no record. -/
theorem claim_C10_no_plain_part (m : EmailMsg) (hm : m.multipart = true)
    (hp : ∀ p ∈ m.walk, p.contentType ≠ "text/plain".toList) :
    extract_text_from_email m = some [] ∧ detect_email_type [] = none ∧
    processMsg m = some [] := by
  have hf : m.walk.find? (fun q => q.contentType == "text/plain".toList) = none := by
    rw [List.find?_eq_none]
    intro p hpm
    simpa using hp p hpm
  have h1 : extract_text_from_email m = some [] := by
    simp only [extract_text_from_email, hm]
    rw [if_true, hf]
  have h2 : detect_email_type ([] : List Char) = none := by decide
  exact ⟨h1, h2, by simp [processMsg, h1, h2]⟩

/-- C10 witness: a concrete HTML-only multipart message is skipped. -/
theorem claim_C10_witness :
    extract_text_from_email demoNoPlainMsg = some [] ∧ detect_email_type [] = none ∧
    processMsg demoNoPlainMsg = some [] :=
  claim_C10_no_plain_part demoNoPlainMsg rfl (by decide)

end FlightsPlot

namespace FlightsPlot

theorem findSome?_eq_find?_bind {α β : Type} (f : α → Option β) (l : List α) :
    l.findSome? f = (l.find? (fun x => (f x).isSome)).bind f := by
  induction l with
  | nil => simp
  | cons a t ih =>
    cases h : f a with
    | none => simp [List.findSome?_cons, List.find?_cons, h, ih]
    | some b => simp [List.findSome?_cons, List.find?_cons, h]

theorem airportAt_isSome (lines : List (List Char)) (j : Nat) :
    (airportAt lines j).isSome =
      ((airportMatch (pyStrip (lines.getD j []))).isSome &&
       (match lines.get? (j + 1) with
        | some nxt => (prefix3Upper (pyStrip nxt)).isSome
        | none => false)) := by
  unfold airportAt
  cases airportMatch (pyStrip (lines.getD j [])) with
  | none => simp
  | some code =>
    cases lines.get? (j + 1) with
    | none => simp
    | some nxt => cases hpe : prefix3Upper (pyStrip nxt) <;> simp [hpe]

theorem airportSearch_eq_spec (lines : List (List Char)) (i : Nat) :
    airportSearch lines i = specAirportWindow lines i := by
  rw [airportSearch, specAirportWindow, findSome?_eq_find?_bind]
  have hp : (fun j => (airportAt lines j).isSome) =
      (fun j => (airportMatch (pyStrip (lines.getD j []))).isSome &&
        (match lines.get? (j + 1) with
         | some nxt => (prefix3Upper (pyStrip nxt)).isSome
         | none => false)) :=
    funext (airportAt_isSome lines)
  rw [hp]

theorem scanTAGo_airports_mem (lines : List (List Char)) (cur : List (List Char)) :
    ∀ (i j : Nat) (pair : List Char),
      ((j, pair) ∈ (scanTAGo lines i cur).2 ↔
        ∃ k, k < cur.length ∧ j = i + k ∧
          (timeMatch (pyStrip (cur.getD k []))).isSome = true ∧
          airportSearch lines j = some pair) := by
  induction cur with
  | nil => intro i j pair; simp [scanTAGo]
  | cons l rest ih =>
    intro i j pair
    cases ht : timeMatch (pyStrip l) with
    | none =>
      simp only [scanTAGo, ht]
      rw [ih (i + 1) j pair]
      constructor
      · rintro ⟨k, hk, hj, hmt, ha⟩
        exact ⟨k + 1, by simpa using hk, by omega, by simpa using hmt, ha⟩
      · rintro ⟨k, hk, hj, hmt, ha⟩
        cases k with
        | zero =>
          rw [List.getD_cons_zero, ht] at hmt
          cases hmt
        | succ k =>
          exact ⟨k, by simpa using hk, by omega, by simpa using hmt, ha⟩
    | some t =>
      cases ha : airportSearch lines i with
      | some pr =>
        simp only [scanTAGo, ht, ha]
        rw [List.mem_cons, ih (i + 1) j pair]
        constructor
        · rintro (heq | ⟨k, hk, hj, hmt, hsa⟩)
          · obtain ⟨rfl, rfl⟩ := Prod.mk.injEq .. ▸ heq
            refine ⟨0, by simp, by omega, ?_, ?_⟩
            · rw [List.getD_cons_zero, ht]; rfl
            · simpa using ha
          · exact ⟨k + 1, by simpa using hk, by omega, by simpa using hmt, hsa⟩
        · rintro ⟨k, hk, hj, hmt, hsa⟩
          cases k with
          | zero =>
            left
            have hji : j = i := by omega
            subst hji
            rw [ha] at hsa
            cases hsa
            rfl
          | succ k =>
            right
            exact ⟨k, by simpa using hk, by omega, by simpa using hmt, hsa⟩
      | none =>
        simp only [scanTAGo, ht, ha]
        rw [ih (i + 1) j pair]
        constructor
        · rintro ⟨k, hk, hj, hmt, hsa⟩
          exact ⟨k + 1, by simpa using hk, by omega, by simpa using hmt, hsa⟩
        · rintro ⟨k, hk, hj, hmt, hsa⟩
          cases k with
          | zero =>
            exfalso
            have hji : j = i := by omega
            subst hji
            rw [ha] at hsa
            cases hsa
          | succ k =>
            exact ⟨k, by simpa using hk, by omega, by simpa using hmt, hsa⟩

/-- C5: for a line whose stripped content matches the time pattern, an
airport pair is recorded for that line exactly when the four-line window
following it contains a line whose stripped content is an airport code with
a dash and whose immediate successor has a three-uppercase-letter stripped
prefix; the recorded pair is the one built from the first such window line,
and no pair is recorded when the window has none.  All three extractors take
their airports from this shared scan. -/
theorem claim_C5_airport_window (lines : List (List Char)) (i : Nat)
    (hi : i < lines.length)
    (ht : (timeMatch (pyStrip (lines.getD i []))).isSome = true) :
    ∀ pair, ((i, pair) ∈ (scanTimesAirports lines).2 ↔
      specAirportWindow lines i = some pair) := by
  intro pair
  rw [scanTimesAirports, scanTAGo_airports_mem lines lines 0 i pair,
    ← airportSearch_eq_spec]
  constructor
  · rintro ⟨k, hk, hj, hmt, hsa⟩
    exact hsa
  · intro hsa
    exact ⟨i, hi, by omega, ht, hsa⟩

/-- C5 witness: in a concrete message body the time line at index 0 is paired
with `ZRH-LIS` found at window line 2 and its successor. -/
theorem claim_C5_witness :
    (0, "ZRH-LIS".toList) ∈ (scanTimesAirports demoWindowLines).2 :=
  (claim_C5_airport_window demoWindowLines 0 (by decide) (by decide)
    "ZRH-LIS".toList).mpr (by decide)

end FlightsPlot

namespace FlightsPlot

theorem toLower_cases (x : Char) : x.toLower = x ∨ (65 ≤ x.toNat ∧ x.toNat ≤ 90) := by
  by_cases h : 65 ≤ x.toNat ∧ x.toNat ≤ 90
  · exact Or.inr h
  · left
    unfold Char.toLower
    rw [if_neg]
    intro hc
    exact h ⟨hc.1, hc.2⟩

theorem isWordChar_of_eqi {x k : Char} (hk : isWordChar k.toLower = true)
    (h : eqi x k = true) : isWordChar x = true := by
  have hx : x.toLower = k.toLower := by simpa [eqi] using h
  rcases toLower_cases x with hcase | hrange
  · rw [hcase] at hx
    rw [hx]
    exact hk
  · simp only [isWordChar, Bool.or_eq_true, decide_eq_true_eq]
    exact Or.inl (Or.inl (Or.inl hrange))

theorem eqi_eq_false {x k : Char} (hk : isWordChar k.toLower = true)
    (h : isWordChar x = false) : eqi x k = false := by
  cases he : eqi x k
  · rfl
  · rw [isWordChar_of_eqi hk he] at h
    cases h

end FlightsPlot

namespace FlightsPlot

theorem sub3_true_eq (k : Char × Char × Char) (v : List Char)
    (hk1 : isWordChar k.1.toLower = true) :
    ∀ s : List Char, sub3 k v true s =
      s.takeWhile isWordChar ++ sub3 k v false (s.dropWhile isWordChar) := by
  intro s
  induction s with
  | nil => simp [sub3]
  | cons a cs ih =>
    by_cases hw : isWordChar a = true
    · rw [List.takeWhile_cons_of_pos hw, List.dropWhile_cons_of_pos hw]
      rcases cs with _ | ⟨b, _ | ⟨c, rest⟩⟩
      · simp [sub3, hw]
      · by_cases hb : isWordChar b = true <;> simp [sub3, hb]
      · have hL : sub3 k v true (a :: b :: c :: rest) =
            a :: sub3 k v true (b :: c :: rest) := by
          simp [sub3, hw]
        rw [hL, ih]
        simp
    · have hwf : isWordChar a = false := by simpa using hw
      rw [List.takeWhile_cons_of_neg (by simp [hwf]),
        List.dropWhile_cons_of_neg (by simp [hwf])]
      rcases cs with _ | ⟨b, _ | ⟨c, rest⟩⟩
      · simp [sub3]
      · simp [sub3]
      · have he : eqi a k.1 = false := eqi_eq_false hk1 hwf
        simp [sub3, hwf, he]

end FlightsPlot

namespace FlightsPlot

theorem headNot_split {r : List Char} (h : headIsWord r = false) :
    r.takeWhile isWordChar = [] ∧ r.dropWhile isWordChar = r := by
  cases r with
  | nil => simp
  | cons d t =>
    have hd : isWordChar d = false := by simpa [headIsWord] using h
    exact ⟨List.takeWhile_cons_of_neg (by simp [hd]),
      List.dropWhile_cons_of_neg (by simp [hd])⟩

theorem wordMap_short (k : Char × Char × Char) (v : List Char) :
    ∀ s : List Char, s.length ≤ 2 → wordMap (wordSub k v) s = s := by
  intro s hs
  rcases s with _ | ⟨a, _ | ⟨b, _ | ⟨c, t⟩⟩⟩
  · simp [wordMap]
  · by_cases h1 : isWordChar a = true <;> simp [wordMap, h1, wordSub]
  · by_cases h1 : isWordChar a = true <;> by_cases h2 : isWordChar b = true <;>
      simp [wordMap, h1, h2, wordSub]
  · simp at hs

theorem sub3_false_eq_wordMap (k : Char × Char × Char) (v : List Char)
    (hk1 : isWordChar k.1.toLower = true) (hk2 : isWordChar k.2.1.toLower = true)
    (hk3 : isWordChar k.2.2.toLower = true) :
    ∀ (n : Nat) (s : List Char), s.length ≤ n →
      sub3 k v false s = wordMap (wordSub k v) s := by
  intro n
  induction n with
  | zero =>
    intro s hs
    have hnil : s = [] := List.length_eq_zero.mp (Nat.le_zero.mp hs)
    subst hnil
    simp [sub3, wordMap]
  | succ n ih =>
    intro s hs
    rcases s with _ | ⟨a, cs⟩
    · simp [sub3, wordMap]
    by_cases hw : isWordChar a = true
    · have hwm : wordMap (wordSub k v) (a :: cs) =
          wordSub k v ((a :: cs).takeWhile isWordChar) ++
            wordMap (wordSub k v) (cs.dropWhile isWordChar) := by
        simp [wordMap, hw]
      rcases cs with _ | ⟨b, _ | ⟨c, rest⟩⟩
      · rw [wordMap_short k v [a] (by simp)]
        simp [sub3]
      · rw [wordMap_short k v [a, b] (by simp)]
        simp [sub3]
      · by_cases hm : (eqi a k.1 && eqi b k.2.1 && eqi c k.2.2 && !(headIsWord rest)) = true
        · obtain ⟨⟨⟨h1, h2⟩, h3⟩, h4⟩ :
              ((eqi a k.1 = true ∧ eqi b k.2.1 = true) ∧ eqi c k.2.2 = true) ∧
                (!(headIsWord rest)) = true := by
            simpa [Bool.and_eq_true] using hm
          have hhw : headIsWord rest = false := by simpa using h4
          have hwb : isWordChar b = true := isWordChar_of_eqi hk2 h2
          have hwc : isWordChar c = true := isWordChar_of_eqi hk3 h3
          obtain ⟨htr, hdr⟩ := headNot_split hhw
          have hL : sub3 k v false (a :: b :: c :: rest) = v ++ sub3 k v true rest := by
            simp [sub3, h1, h2, h3, hhw, hwc]
          rw [hL, sub3_true_eq k v hk1 rest, htr, hdr, List.nil_append,
            ih rest (by simp only [List.length_cons] at hs; omega), hwm,
            List.takeWhile_cons_of_pos hw, List.takeWhile_cons_of_pos hwb,
            List.takeWhile_cons_of_pos hwc, htr,
            List.dropWhile_cons_of_pos hwb, List.dropWhile_cons_of_pos hwc, hdr]
          simp [wordSub, h1, h2, h3]
        · have hmf : (eqi a k.1 && eqi b k.2.1 && eqi c k.2.2 && !(headIsWord rest)) = false := by
            simpa using hm
          have hL : sub3 k v false (a :: b :: c :: rest) =
              a :: sub3 k v true (b :: c :: rest) := by
            simp [sub3, hmf, hw]
          have hlen : ((b :: c :: rest).dropWhile isWordChar).length ≤ n := by
            have hle := (List.dropWhile_sublist (l := b :: c :: rest) isWordChar).length_le
            have hcc : (b :: c :: rest).length = rest.length + 2 := by simp
            simp only [List.length_cons] at hs
            omega
          rw [hL, sub3_true_eq k v hk1, ih _ hlen, hwm, List.takeWhile_cons_of_pos hw]
          have hfix : wordSub k v (a :: (b :: c :: rest).takeWhile isWordChar) =
              a :: (b :: c :: rest).takeWhile isWordChar := by
            by_cases hb : isWordChar b = true
            · by_cases hc : isWordChar c = true
              · rw [List.takeWhile_cons_of_pos hb, List.takeWhile_cons_of_pos hc]
                cases hr : headIsWord rest with
                | true =>
                  rcases rest with _ | ⟨d, t⟩
                  · simp [headIsWord] at hr
                  · have hd : isWordChar d = true := by simpa [headIsWord] using hr
                    rw [List.takeWhile_cons_of_pos hd]
                    simp [wordSub]
                | false =>
                  rw [(headNot_split hr).1]
                  have hE : (eqi a k.1 && eqi b k.2.1 && eqi c k.2.2) = false := by
                    simpa [hr] using hmf
                  simp only [wordSub]
                  rw [if_neg]
                  simp [hE]
              · have hcf : isWordChar c = false := by simpa using hc
                rw [List.takeWhile_cons_of_pos hb, List.takeWhile_cons_of_neg (by simp [hcf])]
                simp [wordSub]
            · have hbf : isWordChar b = false := by simpa using hb
              rw [List.takeWhile_cons_of_neg (by simp [hbf])]
              simp [wordSub]
          rw [hfix]
          simp
    · have hwf : isWordChar a = false := by simpa using hw
      have hwm : wordMap (wordSub k v) (a :: cs) = a :: wordMap (wordSub k v) cs := by
        simp [wordMap, hwf]
      rw [hwm]
      rcases cs with _ | ⟨b, _ | ⟨c, rest⟩⟩
      · simp [sub3, wordMap]
      · rw [wordMap_short k v [b] (by simp)]
        simp [sub3]
      · have he : eqi a k.1 = false := eqi_eq_false hk1 hwf
        have hL : sub3 k v false (a :: b :: c :: rest) =
            a :: sub3 k v false (b :: c :: rest) := by
          simp [sub3, he, hwf]
        rw [hL, ih (b :: c :: rest) (by simp only [List.length_cons] at hs ⊢; omega)]

end FlightsPlot

namespace FlightsPlot

theorem wordRun_append (u t : List Char) (hu : ∀ c ∈ u, isWordChar c = true)
    (ht : headIsWord t = false) :
    (u ++ t).takeWhile isWordChar = u ∧ (u ++ t).dropWhile isWordChar = t := by
  induction u with
  | nil => simpa using headNot_split ht
  | cons a u ih =>
    have ha : isWordChar a = true := hu a (by simp)
    have ihu := ih (fun c hc => hu c (List.mem_cons_of_mem a hc))
    simp only [List.cons_append, List.takeWhile_cons_of_pos ha,
      List.dropWhile_cons_of_pos ha]
    exact ⟨by rw [ihu.1], ihu.2⟩

theorem headIsWord_dropWhile (l : List Char) :
    headIsWord (l.dropWhile isWordChar) = false := by
  induction l with
  | nil => simp [headIsWord]
  | cons a t ih =>
    by_cases ha : isWordChar a = true
    · rw [List.dropWhile_cons_of_pos ha]
      exact ih
    · have haf : isWordChar a = false := by simpa using ha
      rw [List.dropWhile_cons_of_neg (by simp [haf])]
      simp [headIsWord, haf]

theorem headIsWord_wordMap (f : List Char → List Char) (r : List Char)
    (ht : headIsWord r = false) : headIsWord (wordMap f r) = false := by
  cases r with
  | nil => simpa [wordMap] using ht
  | cons c t =>
    have hc : isWordChar c = false := by simpa [headIsWord] using ht
    simp [wordMap, hc, headIsWord]

theorem wordMap_append (f : List Char → List Char) (u t : List Char)
    (hu0 : u ≠ []) (hu : ∀ c ∈ u, isWordChar c = true) (ht : headIsWord t = false) :
    wordMap f (u ++ t) = f u ++ wordMap f t := by
  rcases u with _ | ⟨a, u2⟩
  · exact absurd rfl hu0
  have ha : isWordChar a = true := hu a (by simp)
  have hsplit := wordRun_append (a :: u2) t hu ht
  have hsplit2 := wordRun_append u2 t (fun c hc => hu c (List.mem_cons_of_mem a hc)) ht
  simp only [List.cons_append, wordMap, ha, if_pos]
  rw [← List.cons_append, hsplit.1, hsplit2.2]

theorem wordMap_id : ∀ (n : Nat) (s : List Char), s.length ≤ n →
    wordMap (fun w => w) s = s := by
  intro n
  induction n with
  | zero =>
    intro s hs
    have hnil : s = [] := List.length_eq_zero.mp (Nat.le_zero.mp hs)
    subst hnil
    simp [wordMap]
  | succ n ih =>
    intro s hs
    rcases s with _ | ⟨a, cs⟩
    · simp [wordMap]
    by_cases ha : isWordChar a = true
    · have hlen : (cs.dropWhile isWordChar).length ≤ n := by
        have hle := (List.dropWhile_sublist (l := cs) isWordChar).length_le
        simp only [List.length_cons] at hs
        omega
      have := ih (cs.dropWhile isWordChar) hlen
      simp only [wordMap, ha, if_pos, this]
      rw [List.takeWhile_cons_of_pos ha, List.cons_append, ← List.takeWhile_append_dropWhile
        (p := isWordChar) (l := cs)]
      simp
    · have haf : isWordChar a = false := by simpa using ha
      have hlen : cs.length ≤ n := by
        simp only [List.length_cons] at hs
        omega
      simp [wordMap, haf, ih cs hlen]

theorem wordMap_compose (f h : List Char → List Char)
    (hP : ∀ w, w ≠ [] → (∀ c ∈ w, isWordChar c = true) →
      (h w ≠ [] ∧ ∀ c ∈ h w, isWordChar c = true)) :
    ∀ (n : Nat) (s : List Char), s.length ≤ n →
      wordMap f (wordMap h s) = wordMap (fun w => f (h w)) s := by
  intro n
  induction n with
  | zero =>
    intro s hs
    have hnil : s = [] := List.length_eq_zero.mp (Nat.le_zero.mp hs)
    subst hnil
    simp [wordMap]
  | succ n ih =>
    intro s hs
    rcases s with _ | ⟨a, cs⟩
    · simp [wordMap]
    by_cases ha : isWordChar a = true
    · have hw0 : (a :: cs).takeWhile isWordChar ≠ [] := by
        rw [List.takeWhile_cons_of_pos ha]
        simp
      have hwall : ∀ c ∈ (a :: cs).takeWhile isWordChar, isWordChar c = true :=
        fun c hc => List.mem_takeWhile_imp hc
      have hr : headIsWord (cs.dropWhile isWordChar) = false := headIsWord_dropWhile cs
      have hlen : (cs.dropWhile isWordChar).length ≤ n := by
        have hle := (List.dropWhile_sublist (l := cs) isWordChar).length_le
        simp only [List.length_cons] at hs
        omega
      obtain ⟨hh0, hhall⟩ := hP _ hw0 hwall
      have hstep : wordMap h (a :: cs) =
          h ((a :: cs).takeWhile isWordChar) ++ wordMap h (cs.dropWhile isWordChar) := by
        simp [wordMap, ha]
      rw [hstep, wordMap_append f _ _ hh0 hhall (headIsWord_wordMap h _ hr),
        ih _ hlen]
      simp [wordMap, ha]
    · have haf : isWordChar a = false := by simpa using ha
      have hlen : cs.length ≤ n := by
        simp only [List.length_cons] at hs
        omega
      simp [wordMap, haf, ih cs hlen]

end FlightsPlot

namespace FlightsPlot

theorem wordSub_cases (k : Char × Char × Char) (v w : List Char) :
    wordSub k v w = w ∨ wordSub k v w = v := by
  rcases w with _ | ⟨a, _ | ⟨b, _ | ⟨c, _ | ⟨d, t⟩⟩⟩⟩
  · left; rfl
  · left; rfl
  · left; rfl
  · simp only [wordSub]
    split
    · right; rfl
    · left; rfl
  · left; rfl

theorem wordSub_word (k : Char × Char × Char) (v : List Char) (hv0 : v ≠ [])
    (hvall : ∀ c ∈ v, isWordChar c = true) :
    ∀ w, w ≠ [] → (∀ c ∈ w, isWordChar c = true) →
      (wordSub k v w ≠ [] ∧ ∀ c ∈ wordSub k v w, isWordChar c = true) := by
  intro w hw0 hwall
  rcases wordSub_cases k v w with h | h
  · rw [h]; exact ⟨hw0, hwall⟩
  · rw [h]; exact ⟨hv0, hvall⟩

theorem foldl_sub3_eq_wordMap :
    ∀ (ps : List ((Char × Char × Char) × List Char)),
      (∀ kv ∈ ps, isWordChar kv.1.1.toLower = true ∧ isWordChar kv.1.2.1.toLower = true ∧
        isWordChar kv.1.2.2.toLower = true ∧ kv.2 ≠ [] ∧ ∀ c ∈ kv.2, isWordChar c = true) →
      ∀ s : List Char,
        ps.foldl (fun acc kv => sub3 kv.1 kv.2 false acc) s =
          wordMap (fun w => ps.foldl (fun acc kv => wordSub kv.1 kv.2 acc) w) s := by
  intro ps
  induction ps with
  | nil =>
    intro _ s
    simpa using (wordMap_id s.length s le_rfl).symm
  | cons kv ps ih =>
    intro hps s
    obtain ⟨hk1, hk2, hk3, hv0, hvall⟩ := hps kv (by simp)
    have hps2 : ∀ x ∈ ps, isWordChar x.1.1.toLower = true ∧
        isWordChar x.1.2.1.toLower = true ∧ isWordChar x.1.2.2.toLower = true ∧
        x.2 ≠ [] ∧ ∀ c ∈ x.2, isWordChar c = true :=
      fun x hx => hps x (List.mem_cons_of_mem kv hx)
    simp only [List.foldl_cons]
    rw [sub3_false_eq_wordMap kv.1 kv.2 hk1 hk2 hk3 s.length s le_rfl,
      ih hps2 (wordMap (wordSub kv.1 kv.2) s),
      wordMap_compose _ _ (wordSub_word kv.1 kv.2 hv0 hvall) s.length s le_rfl]

theorem translateAll_eq_wordMap (s : List Char) :
    translateAll s = wordMap translateWord s := by
  have hfun : (fun w => italianPairs.foldl (fun acc kv => wordSub kv.1 kv.2 acc) w) =
      translateWord := funext fun w => rfl
  have h := foldl_sub3_eq_wordMap italianPairs (by decide) s
  rw [hfun] at h
  exact h

theorem foldl_wordSub_cases :
    ∀ (ps : List ((Char × Char × Char) × List Char)),
      (∀ kv ∈ ps, kv.2 ∈ italianPairs.map (fun x => x.2)) →
      ∀ w, ps.foldl (fun acc kv => wordSub kv.1 kv.2 acc) w = w ∨
        ps.foldl (fun acc kv => wordSub kv.1 kv.2 acc) w ∈
          italianPairs.map (fun x => x.2) := by
  intro ps
  induction ps with
  | nil => intro _ w; left; rfl
  | cons kv ps ih =>
    intro hps w
    have hkv : kv.2 ∈ italianPairs.map (fun x => x.2) := hps kv (by simp)
    have hps2 := fun x hx => hps x (List.mem_cons_of_mem kv hx)
    simp only [List.foldl_cons]
    rcases wordSub_cases kv.1 kv.2 w with h | h
    · rw [h]
      exact ih hps2 w
    · rw [h]
      rcases ih hps2 kv.2 with h2 | h2
      · rw [h2]
        exact Or.inr hkv
      · exact Or.inr h2

theorem translateWord_cases (w : List Char) :
    translateWord w = w ∨ translateWord w ∈ italianPairs.map (fun x => x.2) :=
  foldl_wordSub_cases italianPairs (fun _ hkv => List.mem_map_of_mem _ hkv) w

theorem translateWord_values :
    ∀ u ∈ italianPairs.map (fun x => x.2), translateWord u = u := by decide

theorem translateWord_idem (w : List Char) :
    translateWord (translateWord w) = translateWord w := by
  rcases translateWord_cases w with h | h
  · rw [h, h]
  · exact translateWord_values _ h

theorem translateWord_word :
    ∀ w, w ≠ [] → (∀ c ∈ w, isWordChar c = true) →
      (translateWord w ≠ [] ∧ ∀ c ∈ translateWord w, isWordChar c = true) := by
  have hvals : ∀ u ∈ italianPairs.map (fun x => x.2),
      u ≠ [] ∧ ∀ c ∈ u, isWordChar c = true := by decide
  intro w hw0 hwall
  rcases translateWord_cases w with h | h
  · rw [h]; exact ⟨hw0, hwall⟩
  · exact hvals _ h

theorem translateAll_idem (s : List Char) :
    translateAll (translateAll s) = translateAll s := by
  rw [translateAll_eq_wordMap (translateAll s), translateAll_eq_wordMap s,
    wordMap_compose _ _ translateWord_word s.length s le_rfl]
  have hfun : (fun w => translateWord (translateWord w)) = translateWord :=
    funext fun w => translateWord_idem w
  rw [hfun]

end FlightsPlot

namespace FlightsPlot

theorem wordMap_no_comma (f : List Char → List Char)
    (hf : ∀ w, ¬(',' ∈ w) → ¬(',' ∈ f w)) :
    ∀ (n : Nat) (s : List Char), s.length ≤ n → ¬(',' ∈ s) → ¬(',' ∈ wordMap f s) := by
  intro n
  induction n with
  | zero =>
    intro s hs
    have hnil : s = [] := List.length_eq_zero.mp (Nat.le_zero.mp hs)
    subst hnil
    simp [wordMap]
  | succ n ih =>
    intro s hs hsc
    rcases s with _ | ⟨a, cs⟩
    · simp [wordMap]
    by_cases ha : isWordChar a = true
    · have hstep : wordMap f (a :: cs) =
          f ((a :: cs).takeWhile isWordChar) ++ wordMap f (cs.dropWhile isWordChar) := by
        simp [wordMap, ha]
      rw [hstep]
      intro hmem
      rcases List.mem_append.mp hmem with hmem | hmem
      · refine hf _ ?_ hmem
        intro hw
        exact hsc ((List.takeWhile_sublist isWordChar).subset hw)
      · have hlen : (cs.dropWhile isWordChar).length ≤ n := by
          have hle := (List.dropWhile_sublist (l := cs) isWordChar).length_le
          simp only [List.length_cons] at hs
          omega
        have hcs : ¬(',' ∈ cs.dropWhile isWordChar) := by
          intro hw
          exact hsc (List.mem_cons_of_mem a ((List.dropWhile_sublist isWordChar).subset hw))
        exact ih _ hlen hcs hmem
    · have haf : isWordChar a = false := by simpa using ha
      have hstep : wordMap f (a :: cs) = a :: wordMap f cs := by
        simp [wordMap, haf]
      rw [hstep]
      intro hmem
      rcases List.mem_cons.mp hmem with hmem | hmem
      · exact hsc (hmem ▸ List.mem_cons_self a cs)
      · have hcs : ¬(',' ∈ cs) := fun hw => hsc (List.mem_cons_of_mem a hw)
        exact ih cs (by simp only [List.length_cons] at hs; omega) hcs hmem

theorem translateWord_no_comma : ∀ w, ¬(',' ∈ w) → ¬(',' ∈ translateWord w) := by
  have hvals : ∀ u ∈ italianPairs.map (fun x => x.2), ¬(',' ∈ u) := by decide
  intro w hw
  rcases translateWord_cases w with h | h
  · rw [h]; exact hw
  · rw [show translateWord w = translateWord w from rfl]
    intro hm
    exact hvals _ h hm

theorem translateAll_no_comma (s : List Char) (hs : ¬(',' ∈ s)) :
    ¬(',' ∈ translateAll s) := by
  rw [translateAll_eq_wordMap]
  exact wordMap_no_comma translateWord translateWord_no_comma s.length s le_rfl hs

theorem commaFix_cases (t : List Char) : commaFix t = t ∨ ',' ∈ commaFix t := by
  rcases t with _ | ⟨a, _ | ⟨b, _ | ⟨c, rest⟩⟩⟩
  · left; rfl
  · left; rfl
  · left; rfl
  · by_cases hw : (isWordChar a && isWordChar b && isWordChar c) = true
    · cases hdrop : rest.dropWhile pySpace with
      | nil =>
        left
        simp [commaFix, hw, hdrop]
      | cons d tail =>
        by_cases hcond : (!(rest.takeWhile pySpace).isEmpty && pyDigit d) = true
        · right
          simp [commaFix, hw, hdrop, hcond]
        · left
          simp [commaFix, hw, hdrop, hcond]
    · left
      simp [commaFix, hw]

/-- C8: the duplicated dict key `'mar'` ends up mapping to the month `'Mar'`,
never the weekday `'Tue'`: `'mar 23 ott'` normalizes to `'Mar, 23 Oct'`, and
the bare word `'mar'` translates to `'Mar'`. -/
theorem claim_C8_mar_maps_to_month :
    normalize_italian_date "mar 23 ott".toList = "Mar, 23 Oct".toList ∧
    normalize_italian_date "mar 23 ott".toList ≠ "Tue, 23 Oct".toList ∧
    translateAll "mar".toList = "Mar".toList := by
  refine ⟨by decide, by decide, by decide⟩

/-- C9: `normalize_italian_date` is idempotent on every string.  An input
with a comma is returned unchanged; otherwise the translation passes are
word-level and idempotent, they introduce no comma, and the comma-inserting
rewrite either leaves the string unchanged or produces a string containing a
comma, which the second application returns as is. -/
theorem claim_C9_normalize_idempotent (s : List Char) :
    normalize_italian_date (normalize_italian_date s) = normalize_italian_date s := by
  by_cases hc : s.contains ',' = true
  · have hmem : ',' ∈ s := List.elem_iff.mp hc
    have h1 : normalize_italian_date s = s := by
      simp [normalize_italian_date, hmem]
    rw [h1, h1]
  · have hnotmem : ¬(',' ∈ s) := by
      intro hm
      exact hc (List.elem_iff.mpr hm)
    have h1 : normalize_italian_date s = commaFix (translateAll s) := by
      simp [normalize_italian_date, hnotmem]
    have hnt : ¬(',' ∈ translateAll s) := translateAll_no_comma s hnotmem
    rcases commaFix_cases (translateAll s) with he | hm
    · rw [h1, he]
      have h2 : normalize_italian_date (translateAll s) =
          commaFix (translateAll (translateAll s)) := by
        simp [normalize_italian_date, hnt]
      rw [h2, translateAll_idem, he]
    · rw [h1]
      simp [normalize_italian_date, hm]

end FlightsPlot
